import Mathlib

/-!
# COMET (StarC to C transpiler): line emitters and the drive loop

A shallow embedding of `src/COMET.c`.

* A C string is a `List Char`: the characters before the terminating NUL.
* The output stream `out` is modelled by the text each emitter appends to it.
* `int indent` is an `Int`; the emitters that receive `int *indent` return the
  new value next to the emitted text.
* The input stream is the list of buffers successive `fgets` calls return.
-/

namespace COMET

/-- The `MAX_LINE` macro: the size of every line buffer. -/
def MAX_LINE : Nat := 4096

/-- C `isspace` in the C locale: space, `\t`, `\n`, `\v`, `\f`, `\r`. -/
def isspace (c : Char) : Bool :=
  c == ' ' || (9 ≤ c.toNat && c.toNat ≤ 13)

/-- Character `s[i]` of a C string; the index just past the text reads the NUL. -/
def cget (s : List Char) (i : Nat) : Char :=
  s.getD i (Char.ofNat 0)

/-- The idiom `strncpy(dst, src, n); dst[n] = 0`: the first `n` characters of `src`. -/
def strncpy (src : List Char) (n : Nat) : List Char :=
  src.take n

/-- Function `trim_left`: skip leading whitespace. -/
def trim_left : List Char → List Char
  | [] => []
  | c :: s => if isspace c then trim_left s else c :: s

/-- Loop of `trim_right_inplace` with `n` the current length. -/
def trim_right_loop (s : List Char) : Nat → List Char
  | 0 => []
  | n + 1 => if isspace (cget s n) then trim_right_loop s n else s.take (n + 1)

/-- Function `trim_right_inplace`: cut trailing whitespace. -/
def trim_right_inplace (s : List Char) : List Char :=
  trim_right_loop s s.length

/-- Function `starts_with(s, p)`: `strncmp(s, p, strlen(p)) == 0`. -/
def starts_with : List Char → List Char → Bool
  | _, [] => true
  | [], _ :: _ => false
  | c :: s, p :: ps => c == p && starts_with s ps

/-- Library `strchr(s, c)` as the offset of the first `c` in `s`, `none` for NULL. -/
def strchr : List Char → Char → Option Nat
  | [], _ => none
  | x :: s, c => if x == c then some 0 else (strchr s c).map (· + 1)

/-- Library `strstr(s, needle)` as the offset of the first occurrence, `none` for NULL. -/
def strstr : List Char → List Char → Option Nat
  | [], needle => if starts_with [] needle then some 0 else none
  | x :: s, needle =>
    if starts_with (x :: s) needle then some 0 else (strstr s needle).map (· + 1)

/-- Function `write_indent`: four spaces, `indent` times (nothing when `indent ≤ 0`). -/
def write_indent (indent : Int) : List Char :=
  (List.replicate indent.toNat "    ".toList).flatten

/-- The idiom `if (L > 0 && s[L-1] == ';') s[L-1] = 0`: drop one trailing semicolon. -/
def strip_semicolon (s : List Char) : List Char :=
  if s.length > 0 && cget s (s.length - 1) == ';' then s.take (s.length - 1) else s

/-- Library `sscanf(rest, "include %255s", name)`: the literal `include`, optional
whitespace, then at most 255 non-whitespace characters; `none` when the
conversion does not happen (the call returns less than 1). -/
def sscanf_include (rest : List Char) : Option (List Char) :=
  if starts_with rest "include".toList then
    let name := ((trim_left (rest.drop 7)).takeWhile (fun c => !isspace c)).take 255
    if name.isEmpty then none else some name
  else none

/-- Function `emit_include`: nothing is written when the `sscanf` conversion fails. -/
def emit_include (rest : List Char) : List Char :=
  match sscanf_include rest with
  | some name0 =>
    let name := strip_semicolon name0
    if (strchr name '.').isSome || (strchr name '<').isSome || (strchr name '"').isSome then
      "#include ".toList ++ name ++ "\n".toList
    else
      "#include <".toList ++ name ++ ".h>\n".toList
  | none => []

/-- Function `emit_define`. -/
def emit_define (rest : List Char) : List Char :=
  "#define ".toList ++ trim_left (rest.drop "define".length) ++ "\n".toList

/-- Function `emit_comment`. -/
def emit_comment (rest : List Char) (indent : Int) : List Char :=
  write_indent indent ++ "//".toList ++ rest ++ "\n".toList

/-- Function `emit_function_start`: the emitted text and the new indent. -/
def emit_function_start (rest : List Char) (indent : Int) : List Char × Int :=
  (trim_left rest ++ " \x7b\n".toList, indent + 1)

/-- Function `emit_var_line`; `strstr(buf, "string ") == buf` is offset 0. -/
def emit_var_line (rest : List Char) (indent : Int) : List Char :=
  let buf0 := strncpy (trim_left rest) (MAX_LINE - 1)
  let buf1 := if starts_with buf0 "$ ".toList then buf0.drop 2 else buf0
  let buf2 :=
    if strstr buf1 "string ".toList == some 0 then
      strncpy ("char *".toList ++ buf1.drop "string ".length) (MAX_LINE - 1)
    else buf1
  let buf3 :=
    if buf2.length == 0 || cget buf2 (buf2.length - 1) != ';' then buf2 ++ ";".toList
    else buf2
  write_indent indent ++ buf3 ++ "\n".toList

/-- Function `emit_block_end`: the emitted text and the new indent. -/
def emit_block_end (indent : Int) : List Char × Int :=
  let indent1 := if indent > 0 then indent - 1 else indent
  (write_indent indent1 ++ "\x7d\n".toList, indent1)

/-- The test on the control keywords that start blocks (the same eight
`starts_with` calls in `emit_command` and in `main`). -/
def is_control (tmp : List Char) : Bool :=
  starts_with tmp "if ".toList || starts_with tmp "if(".toList ||
  starts_with tmp "for ".toList || starts_with tmp "for(".toList ||
  starts_with tmp "while ".toList || starts_with tmp "while(".toList ||
  starts_with tmp "switch ".toList || starts_with tmp "switch(".toList

/-- Function `emit_command`; `start + 1` is read after the trailing `;` is cut. -/
def emit_command (rest : List Char) (indent : Int) : List Char :=
  let tmp0 := strncpy (trim_left rest) (MAX_LINE - 1)
  let tmp := if cget tmp0 0 == ' ' then tmp0.drop 1 else tmp0
  if starts_with tmp "writeLine(".toList || starts_with tmp "writeLine ".toList then
    match strchr tmp '(' with
    | some start =>
      write_indent indent ++ "printf(".toList ++ (strip_semicolon tmp).drop (start + 1)
        ++ "\\n);\n".toList
    | none =>
      write_indent indent ++ "// unrecognized writeLine usage: ".toList ++ tmp ++ "\n".toList
  else if starts_with tmp "write(".toList || starts_with tmp "write ".toList then
    match strchr tmp '(' with
    | some start =>
      write_indent indent ++ "printf(".toList ++ (strip_semicolon tmp).drop (start + 1)
        ++ ");\n".toList
    | none =>
      write_indent indent ++ "// unrecognized write usage: ".toList ++ tmp ++ "\n".toList
  else if starts_with tmp "read ".toList then
    let varname := trim_left (tmp.drop "read ".length)
    let namebuf := strip_semicolon (trim_right_inplace (strncpy varname 255))
    write_indent indent ++ "scanf(\"%d\", &".toList ++ namebuf ++ ");\n".toList
  else if is_control tmp then
    write_indent indent ++ tmp ++ " \x7b\n".toList
  else
    let fallback0 := trim_right_inplace (strncpy tmp (MAX_LINE - 1))
    let fallback :=
      if fallback0.length > 0 && cget fallback0 (fallback0.length - 1) != ';' then
        fallback0 ++ ";".toList
      else fallback0
    write_indent indent ++ fallback ++ "\n".toList

/-- Function `emit_case_line`. -/
def emit_case_line (rest : List Char) (indent : Int) : List Char :=
  let p := trim_left rest
  if starts_with p "case ".toList then
    write_indent indent ++ p ++ ":\n".toList
  else if starts_with p "default".toList then
    write_indent indent ++ "default:\n".toList
  else
    write_indent indent ++ p ++ ":\n".toList

/-- Body of the `while (fgets(...))` loop of `main` for one buffer `line`:
the text written to `out` and the indent after the line. -/
def process_line (indent : Int) (line : List Char) : List Char × Int :=
  let s := trim_right_inplace line
  let t := trim_left s
  if t.isEmpty then ("\n".toList, indent)
  else if starts_with t "///".toList then (emit_command (t.drop 3) indent, indent)
  else if starts_with t "//".toList then (emit_case_line (t.drop 2) indent, indent)
  else if cget t 0 == '+' then
    let rest := trim_left (t.drop 1)
    if starts_with rest "include".toList then (emit_include rest, indent)
    else if starts_with rest "define".toList then (emit_define rest, indent)
    else
      (write_indent indent ++ "// unrecognized + directive: ".toList ++ rest ++ "\n".toList,
        indent)
  else if cget t 0 == '|' then (emit_comment (t.drop 1) indent, indent)
  else if cget t 0 == '@' then emit_function_start (t.drop 1) indent
  else if cget t 0 == '$' then (emit_var_line (t.drop 1) indent, indent)
  else if cget t 0 == '/' then
    let rest := t.drop 1
    let tmp2 := strncpy (trim_left rest) (MAX_LINE - 1)
    if is_control tmp2 then (emit_command rest indent, indent + 1)
    else (emit_command rest indent, indent)
  else if cget t 0 == '\\' then emit_block_end indent
  else (write_indent indent ++ t ++ "\n".toList, indent)

/-- The `while (fgets(...))` loop of `main` over the buffers read, from a
starting indent: everything written to `out` and the final indent. -/
def main_loop : Int → List (List Char) → List Char × Int
  | indent, [] => ([], indent)
  | indent, line :: lines =>
    let r := process_line indent line
    let rs := main_loop r.2 lines
    (r.1 ++ rs.1, rs.2)

/-- What `main` writes to the output file: the header, then the loop from
`indent = 0`. -/
def transpile (lines : List (List Char)) : List Char :=
  "/* Transpiled C produced by readablec_transpiler */\n\n".toList ++ (main_loop 0 lines).1

/-! ## Notions the claims are stated with -/

/-- Claim C3, "the remainder begins with `if`, `for`, `while` or `switch`
(followed by a space or `(`)". -/
def begins_with_block_keyword (r : List Char) : Bool :=
  ["if", "for", "while", "switch"].any fun kw =>
    [' ', '('].any fun c => starts_with r (kw.toList ++ [c])

/-- Claim C3, opener: an `@` line, or a `/` command line whose remainder begins
with a block keyword (the line and the remainder taken without surrounding
whitespace). -/
def is_opener (line : List Char) : Bool :=
  let t := trim_left (trim_right_inplace line)
  cget t 0 == '@' || (cget t 0 == '/' && begins_with_block_keyword (trim_left (t.drop 1)))

/-- Claim C3, closer: a `\` line. -/
def is_closer (line : List Char) : Bool :=
  cget (trim_left (trim_right_inplace line)) 0 == '\\'

/-- Claim C3, properly matched: every prefix of the input has at least as many
openers as closers, and the totals are equal. -/
def balanced (lines : List (List Char)) : Bool :=
  lines.inits.all (fun p => decide (p.countP is_closer ≤ p.countP is_opener)) &&
    lines.countP is_opener == lines.countP is_closer

/-- Claim C6, depth-neutral line: neither an opener nor a closer. -/
def depth_neutral (line : List Char) : Bool :=
  !is_opener line && !is_closer line

/-- Claim C12, "NAME with one trailing `;` removed if present". -/
def without_trailing_semicolon (s : List Char) : List Char :=
  if s.getLast? = some ';' then s.dropLast else s

/-- Claim C12 as stated: the line claimed for `+include NAME`, where a dot,
either angle bracket or a double quote in the name keeps it verbatim. -/
def claimed_include_line (NAME : List Char) : List Char :=
  if '.' ∈ without_trailing_semicolon NAME ∨ '<' ∈ without_trailing_semicolon NAME ∨
      '>' ∈ without_trailing_semicolon NAME ∨ '"' ∈ without_trailing_semicolon NAME then
    "#include ".toList ++ without_trailing_semicolon NAME ++ "\n".toList
  else "#include <".toList ++ without_trailing_semicolon NAME ++ ".h>\n".toList

/-- Claim C17, a command text "that is not a writeLine, write, read or
control-flow-opener command". -/
def is_fallback_command (R : List Char) : Bool :=
  !(starts_with R "writeLine(".toList || starts_with R "writeLine ".toList ||
    starts_with R "write(".toList || starts_with R "write ".toList ||
    starts_with R "read ".toList || begins_with_block_keyword R)

/-- Spec section 3, the kinds of line, the `+` directives split into the
three cases of section 4.2. -/
inductive LineKind where
  | blank
  | tripleSlashCommand
  | caseLabel
  | includeDirective
  | defineDirective
  | unknownDirective
  | comment
  | functionOpen
  | varDecl
  | command
  | blockEnd
  | passthrough
  deriving DecidableEq

/-- Spec sections 3 and 4.1, the kind of a line by the precedence of the
prefixes of its trimmed text: blank, `///`, `//`, then the single characters
`+ | @ $ / \`, else passthrough. -/
def classify (line : List Char) : LineKind :=
  let t := trim_left (trim_right_inplace line)
  if t = [] then LineKind.blank
  else if starts_with t "///".toList then LineKind.tripleSlashCommand
  else if starts_with t "//".toList then LineKind.caseLabel
  else if cget t 0 = '+' then
    if starts_with (trim_left (t.drop 1)) "include".toList then LineKind.includeDirective
    else if starts_with (trim_left (t.drop 1)) "define".toList then LineKind.defineDirective
    else LineKind.unknownDirective
  else if cget t 0 = '|' then LineKind.comment
  else if cget t 0 = '@' then LineKind.functionOpen
  else if cget t 0 = '$' then LineKind.varDecl
  else if cget t 0 = '/' then LineKind.command
  else if cget t 0 = '\\' then LineKind.blockEnd
  else LineKind.passthrough

/-! ## Basic facts about the string helpers -/

theorem write_indent_nat (d : Nat) : write_indent (d : Int) = List.replicate (4 * d) ' ' := by
  simp only [write_indent, Int.toNat_ofNat]
  induction d with
  | zero => simp
  | succ n ih =>
    have h4 : 4 * (n + 1) = 4 * n + 1 + 1 + 1 + 1 := by omega
    rw [List.replicate_succ, List.flatten_cons, ih, h4]
    simp [List.replicate_succ]

theorem trim_left_cons_of_not_space {c : Char} (s : List Char) (h : isspace c = false) :
    trim_left (c :: s) = c :: s := by
  simp [trim_left, h]

theorem trim_left_eq_dropWhile (s : List Char) : trim_left s = s.dropWhile isspace := by
  induction s with
  | nil => rfl
  | cons c s ih => by_cases h : isspace c <;> simp [trim_left, h, ih]

theorem trim_right_loop_eq (s : List Char) (n : Nat) (h : n ≤ s.length) :
    trim_right_loop s n = (s.take n).rdropWhile isspace := by
  induction n with
  | zero => simp [trim_right_loop]
  | succ n ih =>
    have hn : n < s.length := h
    have hget : cget s n = s[n] := by simp [cget, List.getD, List.getElem?_eq_getElem hn]
    have htake : s.take (n + 1) = s.take n ++ [s[n]] := by
      rw [List.take_succ, List.getElem?_eq_getElem hn]; rfl
    rw [trim_right_loop, hget, htake]
    by_cases hs : isspace s[n]
    · rw [if_pos hs, List.rdropWhile_concat_pos _ _ _ hs]; exact ih (Nat.le_of_lt hn)
    · rw [if_neg hs, List.rdropWhile_concat_neg _ _ _ hs]

theorem trim_right_inplace_eq (s : List Char) :
    trim_right_inplace s = s.rdropWhile isspace := by
  rw [trim_right_inplace, trim_right_loop_eq s s.length (Nat.le_refl _), List.take_length]

theorem trim_right_inplace_concat (s : List Char) {c : Char} (h : isspace c = false) :
    trim_right_inplace (s ++ [c]) = s ++ [c] := by
  rw [trim_right_inplace_eq, List.rdropWhile_concat_neg]
  simp [h]

theorem starts_with_append (p s : List Char) : starts_with (p ++ s) p = true := by
  induction p with
  | nil => cases s <;> rfl
  | cons c p ih => simp [starts_with, ih]

theorem starts_with_take (p : List Char) :
    ∀ (s : List Char) (n : Nat), p.length ≤ n → starts_with (s.take n) p = starts_with s p := by
  induction p with
  | nil => intro s n _; cases s <;> cases h : List.take n _ <;> rfl
  | cons c p ih =>
    intro s n hn
    obtain ⟨m, rfl⟩ : ∃ m, n = m + 1 := ⟨n - 1, by simp at hn; omega⟩
    cases s with
    | nil => rfl
    | cons x s =>
      simp only [List.take_succ_cons, starts_with]
      rw [ih s m (by simpa using hn)]

theorem write_indent_eq (x : Int) : write_indent x = List.replicate (4 * x.toNat) ' ' := by
  have h := write_indent_nat x.toNat
  rw [write_indent] at h ⊢
  rw [Int.toNat_ofNat] at h
  exact h

theorem trim_right_inplace_fixed_iff (s : List Char) :
    trim_right_inplace s = s ↔ ∀ hs : s ≠ [], isspace (s.getLast hs) = false := by
  rw [trim_right_inplace_eq, List.rdropWhile_eq_self_iff]
  simp

theorem trim_right_inplace_append (p R : List Char) (hR : trim_right_inplace R = R)
    (hne : R ≠ []) : trim_right_inplace (p ++ R) = p ++ R := by
  rw [trim_right_inplace_fixed_iff] at hR ⊢
  intro _
  rw [List.getLast_append_of_ne_nil hne]
  exact hR hne

theorem trim_right_inplace_cons (c : Char) (R : List Char) (hc : isspace c = false)
    (hR : trim_right_inplace R = R) : trim_right_inplace (c :: R) = c :: R := by
  by_cases hne : R = []
  · subst hne
    exact trim_right_inplace_concat [] hc
  · exact trim_right_inplace_append [c] R hR hne

theorem nil_or_snoc (s : List Char) : s = [] ∨ ∃ s1 c, s = s1 ++ [c] := by
  rcases List.eq_nil_or_concat s with h | ⟨s1, c, h⟩
  · exact Or.inl h
  · exact Or.inr ⟨s1, c, by rw [h, List.concat_eq_append]⟩

theorem cget_length_concat (s : List Char) (c : Char) : cget (s ++ [c]) s.length = c := by
  simp [cget, List.getD]

theorem strip_semicolon_concat_semicolon (s : List Char) :
    strip_semicolon (s ++ [';']) = s := by
  have h : (s ++ [';']).length - 1 = s.length := by simp
  simp [strip_semicolon, h, cget_length_concat]

theorem strip_semicolon_of_no_semicolon (s : List Char) (h : ';' ∉ s) :
    strip_semicolon s = s := by
  rcases nil_or_snoc s with rfl | ⟨s1, c, rfl⟩
  · rfl
  · have hl : (s1 ++ [c]).length - 1 = s1.length := by simp
    have hc : c ≠ ';' := by
      intro hc
      exact h (by simp [hc])
    simp [strip_semicolon, hl, cget_length_concat, hc]

theorem trim_left_of_no_space (s : List Char) (h : ∀ c ∈ s, isspace c = false) :
    trim_left s = s := by
  cases s with
  | nil => rfl
  | cons c s => exact trim_left_cons_of_not_space s (h c (by simp))

theorem trim_right_inplace_of_no_space (s : List Char) (h : ∀ c ∈ s, isspace c = false) :
    trim_right_inplace s = s := by
  rw [trim_right_inplace_fixed_iff]
  intro hs
  exact h _ (List.getLast_mem hs)

/-! ## The claims -/

/-- C1 (the code at the failing input): the lines `/// writeLine("Hi");` and
`/ writeLine("Hi");` are emitted as `printf("Hi")\n);`, with the end-of-line
escape after the closing quote and parenthesis of the argument, which is not
the documented `printf("Hi\n");`. -/
theorem writeLine_Hi_emitted :
    process_line 0 "/// writeLine(\"Hi\");".toList = ("printf(\"Hi\")\\n);\n".toList, 0) ∧
    process_line 0 "/ writeLine(\"Hi\");".toList = ("printf(\"Hi\")\\n);\n".toList, 0) ∧
    "printf(\"Hi\")\\n);\n".toList ≠ "printf(\"Hi\\n\");\n".toList := by
  decide

/-- C2 (the code at the failing input): the lines `/// write("Hi");` and
`/// write("Hi")` are emitted as `printf("Hi"));`, with two closing
parentheses, which is not the documented `printf("Hi");`. -/
theorem write_Hi_emitted :
    process_line 0 "/// write(\"Hi\");".toList = ("printf(\"Hi\"));\n".toList, 0) ∧
    process_line 0 "/// write(\"Hi\")".toList = ("printf(\"Hi\"));\n".toList, 0) ∧
    "printf(\"Hi\"));\n".toList ≠ "printf(\"Hi\");\n".toList := by
  decide

theorem process_line_block_end (l r : List Char) (d : Int) (hd : 0 ≤ d)
    (ht : trim_left (trim_right_inplace l) = '\\' :: r) :
    process_line d l =
      (List.replicate (4 * (max (d - 1) 0).toNat) ' ' ++ "\x7d\n".toList, max (d - 1) 0) := by
  have hp : process_line d l = emit_block_end d := by
    simp [process_line, ht, starts_with, cget]
  rw [hp]
  by_cases h : d > 0
  · have hm : max (d - 1) 0 = d - 1 := max_eq_left (by omega)
    simp only [emit_block_end, if_pos h, hm, write_indent_eq]
  · have h0 : d = 0 := by omega
    subst h0
    simp [emit_block_end, write_indent_eq]

/-- C7: at a depth `d ≥ 0`, a line whose first non-whitespace character is
`\` sets the depth to `max (d - 1) 0` and emits `}` after `4 * max (d - 1) 0`
spaces; the depth after it is never negative. -/
theorem block_end_clamped (l r : List Char) (d : Int) (hd : 0 ≤ d)
    (ht : trim_left (trim_right_inplace l) = '\\' :: r) :
    process_line d l =
      (List.replicate (4 * (max (d - 1) 0).toNat) ' ' ++ "\x7d\n".toList, max (d - 1) 0) ∧
    0 ≤ (process_line d l).2 := by
  have hp := process_line_block_end l r d hd ht
  refine ⟨hp, ?_⟩
  rw [hp]
  exact le_max_right _ _

theorem block_end_clamped_witness :
    (0 : Int) ≤ 0 ∧ trim_left (trim_right_inplace "\\".toList) = '\\' :: [] ∧
    process_line 0 "\\".toList = ("\x7d\n".toList, 0) ∧
    process_line 2 "  \\ ".toList = ("    \x7d\n".toList, 1) :=
  ⟨by decide, by decide, (block_end_clamped "\\".toList [] 0 (by decide) (by decide)).1,
    (block_end_clamped "  \\ ".toList [] 2 (by decide) (by decide)).1⟩

/-- C8: a line that begins (after trimming) with `//` goes to the command
emitter with the text after `///` when a third `/` follows, and to the
case-label emitter with the text after `//` otherwise; the depth is unchanged. -/
theorem slash_precedence (l r : List Char) (d : Int)
    (ht : trim_left (trim_right_inplace l) = "//".toList ++ r) :
    process_line d l =
      if starts_with r "/".toList then (emit_command (r.drop 1) d, d)
      else (emit_case_line r d, d) := by
  cases r with
  | nil => simp [process_line, ht, starts_with]
  | cons c r =>
    by_cases hc : c = '/'
    · simp [process_line, ht, starts_with, hc]
    · simp [process_line, ht, starts_with, hc]

theorem slash_precedence_witness :
    trim_left (trim_right_inplace "///x".toList) = "//".toList ++ "/x".toList ∧
    process_line 0 "///x".toList = (emit_command "x".toList 0, 0) ∧
    process_line 0 "//case 1".toList = (emit_case_line "case 1".toList 0, 0) ∧
    emit_command "x".toList 0 = "x;\n".toList ∧
    emit_case_line "/x".toList 0 = "/x:\n".toList :=
  ⟨by decide, slash_precedence "///x".toList "/x".toList 0 (by decide),
    slash_precedence "//case 1".toList "case 1".toList 0 (by decide), by decide, by decide⟩

/-- C9: a non-blank line whose first non-whitespace character is none of
`+ | @ $ / \` is emitted as `4 * d` spaces and the trimmed line, and the depth
is unchanged. -/
theorem passthrough_unknown (l r : List Char) (c : Char) (d : Nat)
    (ht : trim_left (trim_right_inplace l) = c :: r)
    (hc : c ∉ ['+', '|', '@', '$', '/', '\\']) :
    process_line d l = (List.replicate (4 * d) ' ' ++ (c :: r) ++ "\n".toList, (d : Int)) := by
  simp only [List.mem_cons, List.mem_singleton, not_or, List.not_mem_nil, or_false] at hc
  simp [process_line, ht, starts_with, cget, hc, write_indent_nat]

theorem passthrough_unknown_witness :
    trim_left (trim_right_inplace "%foo".toList) = '%' :: "foo".toList ∧
    '%' ∉ ['+', '|', '@', '$', '/', '\\'] ∧
    process_line (0 : Nat) "%foo".toList = ("%foo\n".toList, ((0 : Nat) : Int)) :=
  ⟨by decide, by decide, passthrough_unknown "%foo".toList "foo".toList '%' 0 (by decide) (by decide)⟩

/-- C10: a comment line `|R`, `R` without trailing whitespace, is emitted as
`4 * d` spaces, `//` and `R` unchanged, and the depth is unchanged. -/
theorem comment_preserved (R : List Char) (d : Nat) (hR : trim_right_inplace R = R) :
    process_line d ('|' :: R) =
      (List.replicate (4 * d) ' ' ++ "//".toList ++ R ++ "\n".toList, (d : Int)) := by
  have hs : trim_right_inplace ('|' :: R) = '|' :: R :=
    trim_right_inplace_cons '|' R (by decide) hR
  simp [process_line, hs, trim_left, isspace, starts_with, cget, emit_comment, write_indent_nat]

theorem comment_preserved_witness :
    trim_right_inplace " a\tb //|".toList = " a\tb //|".toList ∧
    process_line (1 : Nat) "| a\tb //|".toList = ("    // a\tb //|\n".toList, ((1 : Nat) : Int)) :=
  ⟨by decide, comment_preserved " a\tb //|".toList 1 (by decide)⟩

theorem emit_var_line_string (R : List Char) (d : Nat)
    (hlen : "string ".length + R.length < MAX_LINE) :
    emit_var_line (" string ".toList ++ R) d =
      List.replicate (4 * d) ' ' ++ "char *".toList ++ R ++
        (if R.getLast? = some ';' then [] else ";".toList) ++ "\n".toList := by
  have hlen1 : R.length + 7 ≤ 4095 := by
    have h7 : "string ".length = 7 := rfl
    rw [h7, MAX_LINE] at hlen
    omega
  have ht : trim_left (" string ".toList ++ R) = "string ".toList ++ R := by
    simp [trim_left, isspace]
  have h0 : strncpy (trim_left (" string ".toList ++ R)) (MAX_LINE - 1) =
      "string ".toList ++ R := by
    rw [ht, strncpy]
    apply List.take_of_length_le
    rw [List.length_append, show "string ".toList.length = 7 from rfl, MAX_LINE]
    omega
  have h2 : strncpy ("char *".toList ++ R) (MAX_LINE - 1) = "char *".toList ++ R := by
    rw [strncpy]
    apply List.take_of_length_le
    rw [List.length_append, show "char *".toList.length = 6 from rfl, MAX_LINE]
    omega
  have h1 : starts_with ("string ".toList ++ R) "$ ".toList = false := by
    simp [starts_with]
  have h3 : strstr ("string ".toList ++ R) "string ".toList = some 0 := by
    simp [strstr, starts_with]
  have h4 : ("string ".toList ++ R).drop "string ".length = R := rfl
  simp only [emit_var_line, h0, h1, h3, h4, h2, Bool.false_eq_true, if_false, beq_self_eq_true,
    if_true, write_indent_nat]
  rcases nil_or_snoc R with rfl | ⟨R1, c, rfl⟩
  · simp [cget]
  · have hl : ("char *".toList ++ (R1 ++ [c])).length - 1 = ("char *".toList ++ R1).length := by
      simp only [List.length_append, List.length_singleton]
      omega
    rw [hl, ← List.append_assoc "char *".toList R1 [c], cget_length_concat]
    by_cases hc : c = ';'
    · simp [hc]
    · simp [hc]

/-- The line `$ string R`, `R` not empty and without trailing whitespace, goes
to the variable emitter, which replaces the keyword. -/
theorem process_line_var_string (R : List Char) (d : Nat)
    (hlen : "string ".length + R.length < MAX_LINE) (hne : R ≠ [])
    (hR : trim_right_inplace R = R) :
    process_line d ("$ string ".toList ++ R) =
      (List.replicate (4 * d) ' ' ++ "char *".toList ++ R ++
        (if R.getLast? = some ';' then [] else ";".toList) ++ "\n".toList, (d : Int)) := by
  have he := emit_var_line_string R d hlen
  have hs := trim_right_inplace_append "$ string ".toList R hR hne
  have ht : trim_left ("$ string ".toList ++ R) = '$' :: (" string ".toList ++ R) := by
    simp [trim_left, isspace]
  have hp3 : starts_with ('$' :: (" string ".toList ++ R)) "///".toList = false := by
    simp [starts_with]
  have hp2 : starts_with ('$' :: (" string ".toList ++ R)) "//".toList = false := by
    simp [starts_with]
  simp only [process_line, hs, ht, hp3, hp2, cget, List.getD_cons_zero, List.drop_one,
    List.tail_cons, he, List.isEmpty_cons, Bool.false_eq_true, if_false]
  simp

theorem read_namebuf (NAME sfx : List Char) (hsfx : sfx = [] ∨ sfx = [';'])
    (hws : ∀ c ∈ NAME, isspace c = false) (hsemi : ';' ∉ NAME) (hlen : NAME.length ≤ 254) :
    strip_semicolon (trim_right_inplace (strncpy (trim_left (NAME ++ sfx)) 255)) = NAME := by
  have hws2 : ∀ c ∈ NAME ++ sfx, isspace c = false := by
    intro c hc
    rcases hsfx with rfl | rfl
    · exact hws c (by simpa using hc)
    · rcases List.mem_append.1 hc with h | h
      · exact hws c h
      · have : c = ';' := by simpa using h
        subst this
        decide
  have hl : (NAME ++ sfx).length ≤ 255 := by
    rcases hsfx with rfl | rfl <;> simp <;> omega
  rw [trim_left_of_no_space _ hws2, strncpy, List.take_of_length_le hl,
    trim_right_inplace_of_no_space _ hws2]
  rcases hsfx with rfl | rfl
  · simpa using strip_semicolon_of_no_semicolon NAME hsemi
  · exact strip_semicolon_concat_semicolon NAME

theorem emit_command_read (NAME sfx : List Char) (d : Nat) (hsfx : sfx = [] ∨ sfx = [';'])
    (hws : ∀ c ∈ NAME, isspace c = false) (hsemi : ';' ∉ NAME) (hlen : NAME.length ≤ 254) :
    emit_command (" read ".toList ++ (NAME ++ sfx)) d =
      List.replicate (4 * d) ' ' ++ "scanf(\"%d\", &".toList ++ NAME ++ ");\n".toList := by
  have hl : ("read ".toList ++ (NAME ++ sfx)).length ≤ 4095 := by
    rw [List.length_append, show "read ".toList.length = 5 from rfl]
    rcases hsfx with rfl | rfl <;> simp <;> omega
  have ht : trim_left (" read ".toList ++ (NAME ++ sfx)) = "read ".toList ++ (NAME ++ sfx) := by
    simp [trim_left, isspace]
  have h0 : strncpy (trim_left (" read ".toList ++ (NAME ++ sfx))) (MAX_LINE - 1) =
      "read ".toList ++ (NAME ++ sfx) := by
    rw [ht, strncpy]
    exact List.take_of_length_le hl
  have hb := read_namebuf NAME sfx hsfx hws hsemi hlen
  have hd : ("read ".toList ++ (NAME ++ sfx)).drop "read ".length = NAME ++ sfx := rfl
  have hc : (cget ("read ".toList ++ (NAME ++ sfx)) 0 == ' ') = false := by
    simp [cget]
  have hw1 : starts_with ("read ".toList ++ (NAME ++ sfx)) "writeLine(".toList = false := by
    simp [starts_with]
  have hw2 : starts_with ("read ".toList ++ (NAME ++ sfx)) "writeLine ".toList = false := by
    simp [starts_with]
  have hw3 : starts_with ("read ".toList ++ (NAME ++ sfx)) "write(".toList = false := by
    simp [starts_with]
  have hw4 : starts_with ("read ".toList ++ (NAME ++ sfx)) "write ".toList = false := by
    simp [starts_with]
  have hr : starts_with ("read ".toList ++ (NAME ++ sfx)) "read ".toList = true :=
    starts_with_append _ _
  simp only [emit_command, h0, hc, hw1, hw2, hw3, hw4, hr, hd, hb, Bool.false_eq_true, if_false,
    Bool.or_self, if_true, write_indent_nat]

/-- C5: for a non-empty name without whitespace or `;` of at most 254
characters, the lines `/// read NAME;`, `/// read NAME`, `/ read NAME;` and
`/ read NAME` all emit `4 * d` spaces and `scanf("%d", &NAME);`, and leave the
depth unchanged. -/
theorem read_emits_scanf (NAME : List Char) (d : Nat) (hne : NAME ≠ [])
    (hws : ∀ c ∈ NAME, isspace c = false) (hsemi : ';' ∉ NAME) (hlen : NAME.length ≤ 254) :
    process_line d ("/// read ".toList ++ NAME ++ ";".toList) =
      (List.replicate (4 * d) ' ' ++ "scanf(\"%d\", &".toList ++ NAME ++ ");\n".toList, (d : Int)) ∧
    process_line d ("/// read ".toList ++ NAME) =
      (List.replicate (4 * d) ' ' ++ "scanf(\"%d\", &".toList ++ NAME ++ ");\n".toList, (d : Int)) ∧
    process_line d ("/ read ".toList ++ NAME ++ ";".toList) =
      (List.replicate (4 * d) ' ' ++ "scanf(\"%d\", &".toList ++ NAME ++ ");\n".toList, (d : Int)) ∧
    process_line d ("/ read ".toList ++ NAME) =
      (List.replicate (4 * d) ' ' ++ "scanf(\"%d\", &".toList ++ NAME ++ ");\n".toList, (d : Int)) := by
  have hfix : ∀ sfx : List Char, sfx = [] ∨ sfx = [';'] →
      trim_right_inplace (NAME ++ sfx) = NAME ++ sfx := by
    intro sfx hsfx
    rcases hsfx with rfl | rfl
    · simpa using trim_right_inplace_of_no_space NAME hws
    · exact trim_right_inplace_concat NAME (by decide)
  have hne2 : ∀ sfx : List Char, NAME ++ sfx ≠ [] := by
    intro sfx h
    exact hne (List.append_eq_nil.1 h).1
  have h3 : ∀ sfx : List Char, sfx = [] ∨ sfx = [';'] →
      process_line d ("/// read ".toList ++ (NAME ++ sfx)) =
        (List.replicate (4 * d) ' ' ++ "scanf(\"%d\", &".toList ++ NAME ++ ");\n".toList,
          (d : Int)) := by
    intro sfx hsfx
    have hs := trim_right_inplace_append "/// read ".toList _ (hfix sfx hsfx) (hne2 sfx)
    have he := emit_command_read NAME sfx d hsfx hws hsemi hlen
    have ht : trim_left ("/// read ".toList ++ (NAME ++ sfx)) =
        "///".toList ++ (" read ".toList ++ (NAME ++ sfx)) := by
      simp [trim_left, isspace]
    have hd : ("///".toList ++ (" read ".toList ++ (NAME ++ sfx))).drop 3 =
        " read ".toList ++ (NAME ++ sfx) := rfl
    have hp : starts_with ("///".toList ++ (" read ".toList ++ (NAME ++ sfx))) "///".toList
        = true := starts_with_append _ _
    have hnil : ("///".toList ++ (" read ".toList ++ (NAME ++ sfx))).isEmpty = false := rfl
    simp only [process_line, hs, ht, hd, hp, hnil, he, Bool.false_eq_true, if_false, if_true]
  have h1 : ∀ sfx : List Char, sfx = [] ∨ sfx = [';'] →
      process_line d ("/ read ".toList ++ (NAME ++ sfx)) =
        (List.replicate (4 * d) ' ' ++ "scanf(\"%d\", &".toList ++ NAME ++ ");\n".toList,
          (d : Int)) := by
    intro sfx hsfx
    have hs := trim_right_inplace_append "/ read ".toList _ (hfix sfx hsfx) (hne2 sfx)
    have he := emit_command_read NAME sfx d hsfx hws hsemi hlen
    have ht : trim_left ("/ read ".toList ++ (NAME ++ sfx)) =
        '/' :: (" read ".toList ++ (NAME ++ sfx)) := by
      simp [trim_left, isspace]
    have hk : is_control (strncpy (trim_left (" read ".toList ++ (NAME ++ sfx))) (MAX_LINE - 1))
        = false := by
      cases hN : NAME ++ sfx <;>
        simp [is_control, strncpy, MAX_LINE, trim_left, isspace, starts_with]
    have hp3 : starts_with ('/' :: (" read ".toList ++ (NAME ++ sfx))) "///".toList = false := by
      simp [starts_with]
    have hp2 : starts_with ('/' :: (" read ".toList ++ (NAME ++ sfx))) "//".toList = false := by
      simp [starts_with]
    simp only [process_line, hs, ht, hp3, hp2, cget, List.getD_cons_zero, List.drop_one,
      List.tail_cons, hk, he, List.isEmpty_cons, Bool.false_eq_true, if_false]
    simp
  refine ⟨?_, ?_, ?_, ?_⟩
  · simpa using h3 [';'] (Or.inr rfl)
  · simpa using h3 [] (Or.inl rfl)
  · simpa using h1 [';'] (Or.inr rfl)
  · simpa using h1 [] (Or.inl rfl)

theorem read_emits_scanf_witness :
    "x".toList ≠ [] ∧ (∀ c ∈ "x".toList, isspace c = false) ∧ ';' ∉ "x".toList ∧
    "x".toList.length ≤ 254 ∧
    process_line (0 : Nat) "/// read x;".toList = ("scanf(\"%d\", &x);\n".toList, 0) :=
  ⟨by decide, by decide, by decide, by decide,
    (read_emits_scanf "x".toList 0 (by decide) (by decide) (by decide) (by decide)).1⟩

theorem is_control_eq_keyword (r : List Char) : is_control r = begins_with_block_keyword r := by
  simp only [is_control, begins_with_block_keyword, List.any_cons, List.any_nil, Bool.or_false]
  simp [Bool.or_assoc]

theorem is_control_strncpy (r : List Char) :
    is_control (strncpy r (MAX_LINE - 1)) = is_control r := by
  simp only [is_control, strncpy, MAX_LINE]
  rw [starts_with_take _ r _ (by decide), starts_with_take _ r _ (by decide),
    starts_with_take _ r _ (by decide), starts_with_take _ r _ (by decide),
    starts_with_take _ r _ (by decide), starts_with_take _ r _ (by decide),
    starts_with_take _ r _ (by decide), starts_with_take _ r _ (by decide)]

theorem is_control_of_not_letter (c : Char) (r : List Char)
    (h : c ≠ 'i' ∧ c ≠ 'f' ∧ c ≠ 'w' ∧ c ≠ 's') : is_control (c :: r) = false := by
  simp [is_control, starts_with, h]

theorem keyword_strncpy (r : List Char) :
    begins_with_block_keyword (strncpy r (MAX_LINE - 1)) = begins_with_block_keyword r := by
  rw [← is_control_eq_keyword, ← is_control_eq_keyword, is_control_strncpy]

/-- The depth after one line, by the kind of the line. -/
theorem process_line_depth (l : List Char) (e : Int) :
    (process_line e l).2 =
      if is_opener l then e + 1
      else if is_closer l then (if e > 0 then e - 1 else e)
      else e := by
  rcases ht : trim_left (trim_right_inplace l) with _ | ⟨c, r⟩
  · simp [process_line, is_opener, is_closer, ht, cget]
  · simp only [process_line, is_opener, is_closer, ht, cget, List.getD_cons_zero,
      List.isEmpty_cons, Bool.false_eq_true, if_false, List.drop_one, List.tail_cons,
      is_control_strncpy, is_control_eq_keyword]
    by_cases h1 : c = '/'
    · subst h1
      rcases r with _ | ⟨c2, r2⟩
      · simp [starts_with, trim_left, begins_with_block_keyword]
      · by_cases h2 : c2 = '/'
        · subst h2
          have hk : ∀ r : List Char,
              begins_with_block_keyword (trim_left ('/' :: r)) = false := by
            intro r
            rw [trim_left_cons_of_not_space r (by decide), ← is_control_eq_keyword]
            exact is_control_of_not_letter _ _ (by decide)
          rcases r2 with _ | ⟨c3, r3⟩
          · simp [starts_with, hk]
          · by_cases h3 : c3 = '/' <;> simp [starts_with, hk, h3]
        · cases hk : begins_with_block_keyword (trim_left (c2 :: r2)) <;>
            simp [starts_with, h2, hk, keyword_strncpy]
    · by_cases h2 : c = '@'
      · subst h2
        simp [starts_with, emit_function_start]
      · by_cases h3 : c = '\\'
        · subst h3
          simp [starts_with, emit_block_end]
        · by_cases h4 : c = '+'
          · subst h4
            simp only [starts_with]
            split_ifs <;> simp_all
          · by_cases h5 : c = '|'
            · subst h5
              simp [starts_with]
            · by_cases h6 : c = '$'
              · subst h6
                simp [starts_with]
              · simp [starts_with, h1, h2, h3, h4, h5, h6]

theorem opener_not_closer (l : List Char) (h : is_opener l = true) : is_closer l = false := by
  simp only [is_opener, is_closer] at *
  generalize cget (trim_left (trim_right_inplace l)) 0 = x at *
  by_cases hx : x = '\\'
  · subst hx
    simp at h
  · simp [hx]

theorem main_loop_append (a b : List (List Char)) : ∀ e : Int,
    main_loop e (a ++ b) =
      ((main_loop e a).1 ++ (main_loop (main_loop e a).2 b).1,
        (main_loop (main_loop e a).2 b).2) := by
  induction a with
  | nil => intro e; simp [main_loop]
  | cons l a ih => intro e; simp [main_loop, ih]

theorem main_loop_neutral (mid : List (List Char)) (e : Int)
    (h : ∀ l ∈ mid, depth_neutral l = true) :
    main_loop e mid = ((mid.map fun l => (process_line e l).1).flatten, e) := by
  induction mid with
  | nil => simp [main_loop]
  | cons l mid ih =>
    have hl := h l (by simp)
    simp only [depth_neutral, Bool.and_eq_true, Bool.not_eq_true'] at hl
    have hd : (process_line e l).2 = e := by
      rw [process_line_depth, hl.1, hl.2]
      simp
    have ih1 := ih (fun x hx => h x (by simp [hx]))
    simp [main_loop, hd, ih1]

/-- Depth after the drive loop when no prefix closes more blocks than the
starting depth and its openers allow: start plus openers minus closers. -/
theorem main_loop_depth (ls : List (List Char)) : ∀ e : Int, 0 ≤ e →
    (∀ p, p <+: ls → (p.countP is_closer : Int) ≤ e + p.countP is_opener) →
    (main_loop e ls).2 = e + ls.countP is_opener - ls.countP is_closer := by
  induction ls with
  | nil => intro e _ _; simp [main_loop]
  | cons l ls ih =>
    intro e he hp
    have h1 := hp [l] (by simp)
    have hstep := process_line_depth l e
    have hexcl := opener_not_closer l
    have hnext : (process_line e l).2 =
        e + (if is_opener l = true then 1 else 0) - (if is_closer l = true then 1 else 0) := by
      rw [hstep]
      by_cases ho : is_opener l = true
      · simp [ho, hexcl ho]
      · by_cases hc : is_closer l = true
        · simp only [List.countP_cons, List.countP_nil, ho, hc, if_true, if_false] at h1
          simp only [ho, hc, if_true, if_false]
          have : e > 0 := by
            push_cast at h1
            omega
          simp [this]
        · simp [ho, hc]
    have hpos : 0 ≤ (process_line e l).2 := by
      rw [hnext]
      simp only [List.countP_cons, List.countP_nil] at h1
      push_cast at h1
      split_ifs at h1 ⊢ <;> omega
    have htail : ∀ p, p <+: ls →
        (p.countP is_closer : Int) ≤ (process_line e l).2 + p.countP is_opener := by
      intro p hpre
      have h2 := hp (l :: p) ((List.cons_prefix_cons).2 ⟨rfl, hpre⟩)
      rw [hnext]
      simp only [List.countP_cons] at h2
      push_cast at h2
      split_ifs at h2 ⊢ <;> omega
    simp only [main_loop]
    rw [ih _ hpos htail, hnext]
    simp only [List.countP_cons]
    push_cast
    split_ifs <;> omega

/-- C3: for input lines whose openers and closers are properly matched, the
drive loop started at depth `d` ends at depth `d`. -/
theorem balanced_returns_to_depth (ls : List (List Char)) (d : Nat)
    (hb : balanced ls = true) : (main_loop d ls).2 = d := by
  simp only [balanced, Bool.and_eq_true, List.all_eq_true, decide_eq_true_eq, beq_iff_eq,
    List.mem_inits] at hb
  have h := main_loop_depth ls d (by omega) (fun p hpre => by
    have := hb.1 p hpre
    omega)
  rw [h, hb.2]
  omega

theorem balanced_returns_to_depth_witness :
    balanced ["@int main()".toList, "/ if (x > 0)".toList, "/// writeLine(\"Hi\");".toList,
      "\\".toList, "/ while(1)".toList, "\\".toList, "\\".toList] = true ∧
    (main_loop (0 : Nat) ["@int main()".toList, "/ if (x > 0)".toList,
      "/// writeLine(\"Hi\");".toList, "\\".toList, "/ while(1)".toList, "\\".toList,
      "\\".toList]).2 = (0 : Nat) :=
  ⟨by decide, balanced_returns_to_depth _ 0 (by decide)⟩

/-- C6: for a condition `C` whose line fits the line buffer and depth-neutral
lines `mid`, the line `/ if(C)` emits `if(C) {` at depth `d` and raises the
depth to `d + 1`; the lines `mid` are then processed at depth `d + 1`, and the
line `\` emits `}` at depth `d` and leaves the depth at `d`. -/
theorem if_block_round_trip (C : List Char) (mid : List (List Char)) (d : Nat)
    (hlen : ("/ if(".toList ++ C ++ ")".toList).length < MAX_LINE)
    (hmid : ∀ l ∈ mid, depth_neutral l = true) :
    process_line d ("/ if(".toList ++ C ++ ")".toList) =
      (List.replicate (4 * d) ' ' ++ "if(".toList ++ C ++ ") \x7b\n".toList, (d : Int) + 1) ∧
    main_loop d (("/ if(".toList ++ C ++ ")".toList) :: (mid ++ ["\\".toList])) =
      (List.replicate (4 * d) ' ' ++ "if(".toList ++ C ++ ") \x7b\n".toList ++
        (mid.map fun l => (process_line ((d : Int) + 1) l).1).flatten ++
        (List.replicate (4 * d) ' ' ++ "\x7d\n".toList), (d : Int)) := by
  have hfirst : process_line d ("/ if(".toList ++ C ++ ")".toList) =
      (List.replicate (4 * d) ' ' ++ "if(".toList ++ C ++ ") \x7b\n".toList, (d : Int) + 1) := by
    have hs : trim_right_inplace ("/ if(".toList ++ C ++ ")".toList) =
        "/ if(".toList ++ C ++ ")".toList :=
      trim_right_inplace_concat _ (by decide)
    have ht : trim_left ("/ if(".toList ++ C ++ ")".toList) =
        '/' :: ' ' :: ("if(".toList ++ (C ++ ")".toList)) := by
      simp [trim_left, isspace]
    have ht2 : trim_left (' ' :: ("if(".toList ++ (C ++ ")".toList))) =
        "if(".toList ++ (C ++ ")".toList) := by
      simp [trim_left, isspace]
    have hl : ("if(".toList ++ (C ++ ")".toList)).length ≤ MAX_LINE - 1 := by
      simp only [List.length_append, MAX_LINE] at hlen ⊢
      rw [show "/ if(".toList.length = 5 from rfl] at hlen
      rw [show "if(".toList.length = 3 from rfl]
      omega
    have hcp : strncpy ("if(".toList ++ (C ++ ")".toList)) (MAX_LINE - 1) =
        "if(".toList ++ (C ++ ")".toList) := by
      rw [strncpy]
      exact List.take_of_length_le hl
    have hk : is_control ("if(".toList ++ (C ++ ")".toList)) = true := by
      simp [is_control, starts_with]
    have hcmd : emit_command (' ' :: ("if(".toList ++ (C ++ ")".toList))) d =
        List.replicate (4 * d) ' ' ++ "if(".toList ++ C ++ ") \x7b\n".toList := by
      have hc : (cget ("if(".toList ++ (C ++ ")".toList)) 0 == ' ') = false := by
        simp [cget]
      have hw1 : starts_with ("if(".toList ++ (C ++ ")".toList)) "writeLine(".toList = false := by
        simp [starts_with]
      have hw2 : starts_with ("if(".toList ++ (C ++ ")".toList)) "writeLine ".toList = false := by
        simp [starts_with]
      have hw3 : starts_with ("if(".toList ++ (C ++ ")".toList)) "write(".toList = false := by
        simp [starts_with]
      have hw4 : starts_with ("if(".toList ++ (C ++ ")".toList)) "write ".toList = false := by
        simp [starts_with]
      have hr : starts_with ("if(".toList ++ (C ++ ")".toList)) "read ".toList = false := by
        simp [starts_with]
      simp only [emit_command, ht2, hcp, hc, hw1, hw2, hw3, hw4, hr, hk, write_indent_nat,
        Bool.false_eq_true, if_false, Bool.or_self, if_true]
      simp
    simp only [process_line, hs, ht, ht2, hcp, hk, hcmd, cget, List.getD_cons_zero,
      List.drop_one, List.tail_cons, List.isEmpty_cons, Bool.false_eq_true, if_false, if_true]
    simp [starts_with]
  refine ⟨hfirst, ?_⟩
  have hlast : process_line ((d : Int) + 1) "\\".toList =
      (List.replicate (4 * d) ' ' ++ "\x7d\n".toList, (d : Int)) := by
    have h := process_line_block_end "\\".toList [] ((d : Int) + 1) (by omega) (by decide)
    rw [h]
    have hm : max ((d : Int) + 1 - 1) 0 = d := by
      rw [max_eq_left (by omega)]
      omega
    rw [hm]
    simp
  rw [main_loop, hfirst, main_loop_append, main_loop_neutral mid _ hmid]
  simp only [main_loop, hlast, List.append_nil, List.append_assoc]

theorem if_block_round_trip_witness :
    ("/ if(".toList ++ "x > 0".toList ++ ")".toList).length < MAX_LINE ∧
    (∀ l ∈ ["/// read x;".toList], depth_neutral l = true) ∧
    main_loop (0 : Nat) ["/ if(x > 0)".toList, "/// read x;".toList, "\\".toList] =
      ("if(x > 0) \x7b\n    scanf(\"%d\", &x);\n\x7d\n".toList, ((0 : Nat) : Int)) :=
  ⟨by decide, by decide,
    (if_block_round_trip "x > 0".toList ["/// read x;".toList] 0 (by decide) (by decide)).2⟩

/-- C11 (the code at the failing input): a `+include` directive with no name
writes nothing at all to the output, at depth 0 and at depth 3, while an
unrecognized `+` directive next to it gets a diagnostic comment. -/
theorem include_without_name_dropped :
    process_line 0 "+include".toList = ([], 0) ∧
    process_line 3 "  + include   ".toList = ([], 3) ∧
    transpile ["+include".toList] = transpile [] ∧
    process_line 0 "+includ".toList = ("// unrecognized + directive: includ\n".toList, 0) := by
  decide

/-- C13 (the code at the failing input): the line `/// if(x)` reaches the
control-flow case of the command emitter, which writes `if(x) {`, and the
depth stays 0; the same text behind the `/` prefix raises the depth to 1. -/
theorem triple_slash_opener_keeps_depth :
    process_line 0 "/// if(x)".toList = ("if(x) \x7b\n".toList, 0) ∧
    process_line 0 "/ if(x)".toList = ("if(x) \x7b\n".toList, 1) ∧
    (main_loop 0 ["@int main()".toList, "/// if(x)".toList, "\\".toList, "\\".toList]).1 =
      "int main() \x7b\n    if(x) \x7b\n\x7d\n\x7d\n".toList := by
  decide

/-- C18: a line whose trimmed text is `@R` emits `R` without its leading
whitespace, one space and the opening brace, with no indentation, and the
depth after the line is `d + 1`. -/
theorem function_open_line (l R : List Char) (d : Int)
    (ht : trim_left (trim_right_inplace l) = '@' :: R) :
    process_line d l = (trim_left R ++ " \x7b\n".toList, d + 1) := by
  simp [process_line, ht, starts_with, cget, emit_function_start]

theorem function_open_line_witness :
    trim_left (trim_right_inplace "  @ int main(void)  ".toList) = '@' :: " int main(void)".toList ∧
    process_line 2 "  @ int main(void)  ".toList = ("int main(void) \x7b\n".toList, 3) :=
  ⟨by decide, function_open_line "  @ int main(void)  ".toList " int main(void)".toList 2
    (by decide)⟩

theorem process_line_nonneg (l : List Char) (e : Int) (he : 0 ≤ e) :
    0 ≤ (process_line e l).2 := by
  rw [process_line_depth]
  split_ifs <;> omega

theorem main_loop_nonneg (ls : List (List Char)) : ∀ e : Int, 0 ≤ e →
    0 ≤ (main_loop e ls).2 := by
  induction ls with
  | nil => intro e he; simpa [main_loop] using he
  | cons l ls ih =>
    intro e he
    simp only [main_loop]
    exact ih _ (process_line_nonneg l e he)

/-- C15: at a depth `d ≥ 0` the depth after a line is `d + 1` for an opener
(an `@` line or a `/` command line that begins a control-flow block),
`max (d - 1) 0` for a `\` line and `d` for every other line; from depth 0
the depth is non-negative after every line of every input. -/
theorem depth_changed_only_by_delimiters (l : List Char) (d : Int) (hd : 0 ≤ d) :
    (process_line d l).2 =
      (if is_opener l then d + 1 else if is_closer l then max (d - 1) 0 else d) ∧
    ∀ (ls : List (List Char)) (k : Nat), 0 ≤ (main_loop 0 (ls.take k)).2 := by
  refine ⟨?_, fun ls k => main_loop_nonneg _ 0 (le_refl 0)⟩
  rw [process_line_depth]
  by_cases h : d > 0
  · rw [if_pos h, max_eq_left (by omega)]
  · have h0 : d = 0 := by omega
    subst h0
    simp

theorem depth_changed_only_by_delimiters_witness :
    (0 : Int) ≤ 1 ∧
    (process_line 1 "/ while (i < n)".toList).2 = 2 ∧
    (process_line 1 "/// if(x)".toList).2 = 1 ∧
    (main_loop 0 (["\\".toList, "@f()".toList, "\\".toList, "\\".toList].take 3)).2 = 0 :=
  ⟨by decide, (depth_changed_only_by_delimiters "/ while (i < n)".toList 1 (by decide)).1,
    (depth_changed_only_by_delimiters "/// if(x)".toList 1 (by decide)).1, by decide⟩

theorem strchr_isSome (s : List Char) (c : Char) : (strchr s c).isSome = true ↔ c ∈ s := by
  induction s with
  | nil => simp [strchr]
  | cons x s ih =>
    by_cases hx : x = c
    · simp [strchr, hx]
    · have hx2 : ¬ c = x := fun h => hx h.symm
      simp [strchr, hx, hx2, ih]

theorem strip_semicolon_eq (s : List Char) :
    strip_semicolon s = without_trailing_semicolon s := by
  rcases nil_or_snoc s with rfl | ⟨s1, c, rfl⟩
  · rfl
  · have hl : (s1 ++ [c]).length - 1 = s1.length := by simp
    by_cases hc : c = ';'
    · simp [strip_semicolon, without_trailing_semicolon, hl, cget_length_concat, hc]
    · simp [strip_semicolon, without_trailing_semicolon, hl, cget_length_concat, hc]

theorem sscanf_include_name (NAME : List Char) (hne : NAME ≠ [])
    (hws : ∀ c ∈ NAME, isspace c = false) (hlen : NAME.length ≤ 255) :
    sscanf_include ("include ".toList ++ NAME) = some NAME := by
  have hp : starts_with ("include ".toList ++ NAME) "include".toList = true := by
    simp [starts_with]
  have hd : trim_left (("include ".toList ++ NAME).drop 7) = NAME := by
    have h1 : ("include ".toList ++ NAME).drop 7 = ' ' :: NAME := rfl
    rw [h1, trim_left, if_pos (by decide), trim_left_of_no_space NAME hws]
  have htw : NAME.takeWhile (fun c => !isspace c) = NAME := by
    rw [List.takeWhile_eq_self_iff]
    intro c hc
    simp [hws c hc]
  have hemp : NAME.isEmpty = false := by
    cases NAME with
    | nil => exact absurd rfl hne
    | cons c r => rfl
  simp only [sscanf_include, hp, hd, htw, List.take_of_length_le hlen, hemp, if_true,
    Bool.false_eq_true, if_false]

theorem process_line_include (NAME : List Char) (d : Int) (hne : NAME ≠ [])
    (hws : ∀ c ∈ NAME, isspace c = false) :
    process_line d ("+include ".toList ++ NAME) =
      (emit_include ("include ".toList ++ NAME), d) := by
  have hs := trim_right_inplace_append "+include ".toList NAME
    (trim_right_inplace_of_no_space NAME hws) hne
  have ht : trim_left ("+include ".toList ++ NAME) = '+' :: ("include ".toList ++ NAME) := by
    simp [trim_left, isspace]
  have ht2 : trim_left ("include ".toList ++ NAME) = "include ".toList ++ NAME := by
    simp [trim_left, isspace]
  have hp : starts_with ("include ".toList ++ NAME) "include".toList = true := by
    simp [starts_with]
  have hp3 : starts_with ('+' :: ("include ".toList ++ NAME)) "///".toList = false := by
    simp [starts_with]
  have hp2 : starts_with ('+' :: ("include ".toList ++ NAME)) "//".toList = false := by
    simp [starts_with]
  simp only [process_line, hs, ht, hp3, hp2, cget, List.getD_cons_zero, List.drop_one,
    List.tail_cons, ht2, hp, List.isEmpty_cons, Bool.false_eq_true, if_false, beq_self_eq_true,
    if_true]

/-- C12 (counterexample): for the name `a>` the line `+include a>` is emitted
as `#include <a>.h>`, while the claim, which counts `>` among the characters
that keep the name verbatim, gives `#include a>`. -/
theorem include_closing_bracket_wrapped :
    process_line 0 "+include a>".toList = ("#include <a>.h>\n".toList, 0) ∧
    claimed_include_line "a>".toList = "#include a>\n".toList ∧
    (process_line 0 "+include a>".toList).1 ≠ claimed_include_line "a>".toList := by
  decide

/-- C12 (amended): for a non-empty name without whitespace of at most 255
characters, the line `+include NAME` emits one unindented line and leaves the
depth unchanged: with `N` the name without one trailing `;`, the line is
`#include N` when `N` contains a dot, a `<` or a double quote, and
`#include <N.h>` otherwise. -/
theorem include_line (NAME : List Char) (d : Int) (hne : NAME ≠ [])
    (hws : ∀ c ∈ NAME, isspace c = false) (hlen : NAME.length ≤ 255) :
    process_line d ("+include ".toList ++ NAME) =
      (if '.' ∈ without_trailing_semicolon NAME ∨ '<' ∈ without_trailing_semicolon NAME ∨
          '"' ∈ without_trailing_semicolon NAME then
        "#include ".toList ++ without_trailing_semicolon NAME ++ "\n".toList
      else "#include <".toList ++ without_trailing_semicolon NAME ++ ".h>\n".toList, d) := by
  rw [process_line_include NAME d hne hws]
  simp only [emit_include, sscanf_include_name NAME hne hws hlen, strip_semicolon_eq]
  by_cases h : '.' ∈ without_trailing_semicolon NAME ∨ '<' ∈ without_trailing_semicolon NAME ∨
      '"' ∈ without_trailing_semicolon NAME
  · have h2 : ((strchr (without_trailing_semicolon NAME) '.').isSome ||
        (strchr (without_trailing_semicolon NAME) '<').isSome ||
        (strchr (without_trailing_semicolon NAME) '"').isSome) = true := by
      simp only [Bool.or_eq_true, strchr_isSome]
      tauto
    rw [if_pos h, if_pos h2]
  · have h2 : ¬ ((strchr (without_trailing_semicolon NAME) '.').isSome ||
        (strchr (without_trailing_semicolon NAME) '<').isSome ||
        (strchr (without_trailing_semicolon NAME) '"').isSome) = true := by
      simp only [Bool.or_eq_true, strchr_isSome]
      tauto
    rw [if_neg h, if_neg h2]

theorem include_line_witness :
    "stdio".toList ≠ [] ∧ (∀ c ∈ "stdio".toList, isspace c = false) ∧
    "stdio".toList.length ≤ 255 ∧
    process_line 2 "+include stdio".toList = ("#include <stdio.h>\n".toList, 2) ∧
    process_line 2 "+include \"my.h\";".toList = ("#include \"my.h\"\n".toList, 2) :=
  ⟨by decide, by decide, by decide,
    include_line "stdio".toList 2 (by decide) (by decide) (by decide),
    include_line "\"my.h\";".toList 2 (by decide) (by decide) (by decide)⟩

theorem trim_left_idem (s : List Char) : trim_left (trim_left s) = trim_left s := by
  induction s with
  | nil => rfl
  | cons c s ih =>
    by_cases h : isspace c = true
    · simp [trim_left, h, ih]
    · simp [trim_left, h]

theorem trim_left_space_cons (R : List Char) : trim_left (' ' :: R) = trim_left R := by
  rw [trim_left, if_pos (by decide)]

theorem emit_command_trim (rest : List Char) (d : Int) :
    emit_command rest d = emit_command (trim_left rest) d := by
  simp only [emit_command, trim_left_idem]

theorem emit_case_line_trim (rest : List Char) (d : Int) :
    emit_case_line rest d = emit_case_line (trim_left rest) d := by
  simp only [emit_case_line, trim_left_idem]

theorem starts_with_iff (p : List Char) :
    ∀ s : List Char, starts_with s p = true ↔ ∃ r, s = p ++ r := by
  induction p with
  | nil => intro s; cases s <;> simp [starts_with]
  | cons c p ih =>
    intro s
    cases s with
    | nil => simp [starts_with]
    | cons x s =>
      simp only [starts_with, Bool.and_eq_true, beq_iff_eq, ih, List.cons_append,
        List.cons.injEq]
      constructor
      · rintro ⟨rfl, r, rfl⟩
        exact ⟨r, rfl, rfl⟩
      · rintro ⟨r, rfl, rfl⟩
        exact ⟨rfl, r, rfl⟩

theorem strchr_none (s : List Char) (c : Char) (h : c ∉ s) : strchr s c = none := by
  have h1 := strchr_isSome s c
  cases hs : strchr s c with
  | none => rfl
  | some i =>
    rw [hs] at h1
    exact absurd (h1.1 rfl) h

theorem strncpy_fits (s : List Char) (h : s.length < MAX_LINE) :
    strncpy s (MAX_LINE - 1) = s := by
  rw [strncpy]
  apply List.take_of_length_le
  rw [MAX_LINE] at h ⊢
  omega

/-- The line `///R`, `R` without trailing whitespace, goes to the command
emitter with `R`, and the depth is unchanged. -/
theorem process_line_triple (R : List Char) (d : Int) (hR : trim_right_inplace R = R) :
    process_line d ("///".toList ++ R) = (emit_command R d, d) := by
  have hs : trim_right_inplace ('/' :: '/' :: '/' :: R) = '/' :: '/' :: '/' :: R :=
    trim_right_inplace_cons _ _ (by decide)
      (trim_right_inplace_cons _ _ (by decide) (trim_right_inplace_cons _ _ (by decide) hR))
  have ht : trim_left ('/' :: '/' :: '/' :: R) = '/' :: '/' :: '/' :: R :=
    trim_left_cons_of_not_space _ (by decide)
  show process_line d ('/' :: '/' :: '/' :: R) = _
  simp [process_line, hs, ht, starts_with]

/-- The line `/ R`, `R` not empty and without trailing whitespace, goes to the
command emitter with `R`; the depth grows by one exactly when `R` begins
(after its leading whitespace) with a control keyword. -/
theorem process_line_slash_space (R : List Char) (d : Int) (hR : trim_right_inplace R = R)
    (hne : R ≠ []) :
    process_line d ("/ ".toList ++ R) =
      (emit_command R d, if is_control (trim_left R) then d + 1 else d) := by
  have hs := trim_right_inplace_append "/ ".toList R hR hne
  have ht : trim_left ("/ ".toList ++ R) = '/' :: ' ' :: R :=
    trim_left_cons_of_not_space _ (by decide)
  have hp3 : starts_with ('/' :: ' ' :: R) "///".toList = false := by simp [starts_with]
  have hp2 : starts_with ('/' :: ' ' :: R) "//".toList = false := by simp [starts_with]
  have he : emit_command (' ' :: R) d = emit_command R d := by
    rw [emit_command_trim, trim_left_space_cons, ← emit_command_trim]
  simp only [process_line, hs, ht, hp3, hp2, cget, List.getD_cons_zero, List.drop_one,
    List.tail_cons, List.isEmpty_cons, Bool.false_eq_true, if_false, is_control_strncpy,
    trim_left_space_cons, he]
  by_cases hk : is_control (trim_left R) = true
  · simp [hk]
  · simp [hk]

/-- The line `//R`, `R` without trailing whitespace and not beginning with `/`,
goes to the case-label emitter with `R`, and the depth is unchanged. -/
theorem process_line_case (R : List Char) (d : Int) (hR : trim_right_inplace R = R)
    (hs : starts_with R "/".toList = false) :
    process_line d ("//".toList ++ R) = (emit_case_line R d, d) := by
  have hs1 : trim_right_inplace ('/' :: '/' :: R) = '/' :: '/' :: R :=
    trim_right_inplace_cons _ _ (by decide) (trim_right_inplace_cons _ _ (by decide) hR)
  have ht : trim_left ('/' :: '/' :: R) = '/' :: '/' :: R :=
    trim_left_cons_of_not_space _ (by decide)
  show process_line d ('/' :: '/' :: R) = _
  cases R with
  | nil => simp [process_line, hs1, ht, starts_with]
  | cons c r =>
    have hc : ¬ c = '/' := by
      intro h
      simp [starts_with, h] at hs
    simp [process_line, hs1, ht, starts_with, hc]

/-- C14 (counterexample): the lines `//defaultCase` and `//default:` are both
emitted as `default:`, while the claim gives `defaultCase:` for the first
(the text `T` unchanged, then a colon). -/
theorem default_label_truncated :
    process_line 0 "//defaultCase".toList = ("default:\n".toList, 0) ∧
    process_line 0 "//default:".toList = ("default:\n".toList, 0) ∧
    (process_line 0 "//defaultCase".toList).1 ≠
      List.replicate (4 * 0) ' ' ++ trim_left "defaultCase".toList ++ ":\n".toList := by
  decide

/-- C14 (amended): with `T` the remainder `R` without leading whitespace, the
case-label emitter writes `4 * d` spaces, then `T` unchanged when `T` does not
begin with `default` and the bare word `default` when it does, then `:`; the
drive loop does so for the line `//R` (`R` without trailing whitespace and not
beginning with `/`) and leaves the depth unchanged. -/
theorem case_label_line (R : List Char) (d : Nat) :
    emit_case_line R d =
      List.replicate (4 * d) ' ' ++
        (if starts_with (trim_left R) "default".toList then "default".toList
          else trim_left R) ++ ":\n".toList ∧
    (trim_right_inplace R = R → starts_with R "/".toList = false →
      process_line d ("//".toList ++ R) =
        (List.replicate (4 * d) ' ' ++
          (if starts_with (trim_left R) "default".toList then "default".toList
            else trim_left R) ++ ":\n".toList, (d : Int))) := by
  have he : emit_case_line R d =
      List.replicate (4 * d) ' ' ++
        (if starts_with (trim_left R) "default".toList then "default".toList
          else trim_left R) ++ ":\n".toList := by
    simp only [emit_case_line, write_indent_nat]
    by_cases hc : starts_with (trim_left R) "case ".toList = true
    · obtain ⟨r, hr⟩ := (starts_with_iff _ _).1 hc
      have hd : starts_with (trim_left R) "default".toList = false := by
        rw [hr]
        simp [starts_with]
      rw [if_pos hc, hd]
      simp
    · rw [if_neg hc]
      by_cases hd : starts_with (trim_left R) "default".toList = true
      · rw [if_pos hd, if_pos hd]
        simp
      · rw [if_neg hd, if_neg hd]
  refine ⟨he, ?_⟩
  intro hR hs
  rw [process_line_case R d hR hs, he]

theorem case_label_line_witness :
    trim_right_inplace " case 'a'".toList = " case 'a'".toList ∧
    starts_with " case 'a'".toList "/".toList = false ∧
    process_line (1 : Nat) "// case 'a'".toList = ("    case 'a':\n".toList, ((1 : Nat) : Int)) ∧
    emit_case_line "default".toList (0 : Nat) = "default:\n".toList :=
  ⟨by decide, by decide, (case_label_line " case 'a'".toList 1).2 (by decide) (by decide),
    (case_label_line "default".toList 0).1⟩

theorem cget_zero_of_trim_left_fixed (R : List Char) (h : trim_left R = R) :
    (cget R 0 == ' ') = false := by
  cases R with
  | nil => decide
  | cons c r =>
    by_cases hc : c = ' '
    · subst hc
      rw [trim_left_space_cons, trim_left_eq_dropWhile] at h
      have hl := congrArg List.length h
      have hsub : List.Sublist (List.dropWhile isspace r) r := List.dropWhile_sublist isspace
      have := hsub.length_le
      simp only [List.length_cons] at hl
      omega
    · simp [cget, hc]

/-- C16: for a command text `R` without `(` that fits the line buffer, the
command emitter writes `4 * d` spaces and the comment
`// unrecognized writeLine usage: R` when `R` begins with `writeLine `, and
`// unrecognized write usage: R` when `R` begins with `write `; behind the
`///` and the `/` prefix the depth is unchanged. -/
theorem unrecognized_write_usage (R : List Char) (d : Nat) (hlen : R.length < MAX_LINE)
    (hno : '(' ∉ R) :
    (starts_with R "writeLine ".toList = true →
      emit_command R d =
        List.replicate (4 * d) ' ' ++ "// unrecognized writeLine usage: ".toList ++ R
          ++ "\n".toList) ∧
    (starts_with R "write ".toList = true →
      emit_command R d =
        List.replicate (4 * d) ' ' ++ "// unrecognized write usage: ".toList ++ R
          ++ "\n".toList) ∧
    ((starts_with R "writeLine ".toList = true ∨ starts_with R "write ".toList = true) →
      trim_right_inplace R = R →
      process_line d ("///".toList ++ R) = (emit_command R d, (d : Int)) ∧
      process_line d ("/ ".toList ++ R) = (emit_command R d, (d : Int))) := by
  have hchr : strchr R '(' = none := strchr_none R '(' hno
  refine ⟨?_, ?_, ?_⟩
  · intro hw
    obtain ⟨r, hr⟩ := (starts_with_iff _ _).1 hw
    have htl : trim_left R = R := by
      rw [hr]
      exact trim_left_cons_of_not_space _ (by decide)
    have hc : (cget R 0 == ' ') = false := cget_zero_of_trim_left_fixed R htl
    simp only [emit_command, htl, strncpy_fits R hlen, hc, hw, hchr, Bool.false_eq_true,
      if_false, Bool.or_true, if_true, write_indent_nat]
  · intro hw
    obtain ⟨r, hr⟩ := (starts_with_iff _ _).1 hw
    have htl : trim_left R = R := by
      rw [hr]
      exact trim_left_cons_of_not_space _ (by decide)
    have hc : (cget R 0 == ' ') = false := cget_zero_of_trim_left_fixed R htl
    have h1 : starts_with R "writeLine(".toList = false := by
      rw [hr]
      simp [starts_with]
    have h2 : starts_with R "writeLine ".toList = false := by
      rw [hr]
      simp [starts_with]
    simp only [emit_command, htl, strncpy_fits R hlen, hc, h1, h2, hw, hchr, Bool.false_eq_true,
      if_false, Bool.or_self, Bool.or_true, if_true, write_indent_nat]
  · intro hw hR
    have hctl : is_control (trim_left R) = false := by
      rcases hw with hw | hw
      · obtain ⟨r, hr⟩ := (starts_with_iff _ _).1 hw
        rw [hr]
        simp [trim_left, isspace, is_control, starts_with]
      · obtain ⟨r, hr⟩ := (starts_with_iff _ _).1 hw
        rw [hr]
        simp [trim_left, isspace, is_control, starts_with]
    have hne : R ≠ [] := by
      rintro rfl
      rcases hw with hw | hw <;> simp [starts_with] at hw
    refine ⟨process_line_triple R d hR, ?_⟩
    rw [process_line_slash_space R d hR hne, hctl]
    simp

theorem unrecognized_write_usage_witness :
    "writeLine \"Hi\";".toList.length < MAX_LINE ∧ '(' ∉ "writeLine \"Hi\";".toList ∧
    starts_with "writeLine \"Hi\";".toList "writeLine ".toList = true ∧
    emit_command "writeLine \"Hi\";".toList (1 : Nat) =
      "    // unrecognized writeLine usage: writeLine \"Hi\";\n".toList ∧
    emit_command "write x".toList (0 : Nat) = "// unrecognized write usage: write x\n".toList :=
  ⟨by decide, by decide, by decide,
    (unrecognized_write_usage "writeLine \"Hi\";".toList 1 (by decide) (by decide)).1
      (by decide),
    (unrecognized_write_usage "write x".toList 0 (by decide) (by decide)).2.1 (by decide)⟩

/-- C17 (counterexample): an empty command text (the lines `///` and `/`) is
emitted as an empty line, only the indentation and the end of line, while
the claim appends a `;` to an empty text as well. -/
theorem empty_command_no_semicolon :
    emit_command [] 0 = "\n".toList ∧
    process_line 0 "///".toList = ("\n".toList, 0) ∧
    process_line 2 "/".toList = ("        \n".toList, 2) ∧
    emit_command [] 0 ≠ List.replicate (4 * 0) ' ' ++ [] ++ ";".toList ++ "\n".toList := by
  decide

theorem emit_command_fallback (R : List Char) (d : Nat) (hl : trim_left R = R)
    (hr : trim_right_inplace R = R) (hlen : R.length < MAX_LINE)
    (hf : is_fallback_command R = true) :
    emit_command R d =
      List.replicate (4 * d) ' ' ++ R ++
        (if R = [] ∨ R.getLast? = some ';' then [] else ";".toList) ++ "\n".toList := by
  simp only [is_fallback_command, Bool.not_eq_true', Bool.or_eq_false_iff,
    ← is_control_eq_keyword] at hf
  obtain ⟨⟨⟨⟨⟨h1, h2⟩, h3⟩, h4⟩, h5⟩, h6⟩ := hf
  have hc : (cget R 0 == ' ') = false := cget_zero_of_trim_left_fixed R hl
  simp only [emit_command, hl, strncpy_fits R hlen, hc, h1, h2, h3, h4, h5, h6, hr,
    Bool.false_eq_true, if_false, Bool.or_self, write_indent_nat]
  rcases nil_or_snoc R with rfl | ⟨s1, c, rfl⟩
  · simp
  · have hlast : (s1 ++ [c]).length - 1 = s1.length := by simp
    rw [hlast, cget_length_concat]
    by_cases hsc : c = ';'
    · simp [hsc]
    · simp [hsc]

/-- C17 (amended): for a command text `R` without leading or trailing
whitespace that fits the line buffer and is not a writeLine, write, read or
control-flow-opener command, the command emitter writes `4 * d` spaces and `R`,
followed by `;` when `R` is not empty and does not already end with `;` (an
empty `R` gives an empty line); behind the `///` and the `/` prefix the depth
is unchanged. -/
theorem command_fallback (R : List Char) (d : Nat) (hl : trim_left R = R)
    (hr : trim_right_inplace R = R) (hlen : R.length < MAX_LINE)
    (hf : is_fallback_command R = true) :
    emit_command R d =
      List.replicate (4 * d) ' ' ++ R ++
        (if R = [] ∨ R.getLast? = some ';' then [] else ";".toList) ++ "\n".toList ∧
    process_line d ("///".toList ++ R) =
      (List.replicate (4 * d) ' ' ++ R ++
        (if R = [] ∨ R.getLast? = some ';' then [] else ";".toList) ++ "\n".toList, (d : Int)) ∧
    (R ≠ [] → process_line d ("/ ".toList ++ R) =
      (List.replicate (4 * d) ' ' ++ R ++
        (if R = [] ∨ R.getLast? = some ';' then [] else ";".toList) ++ "\n".toList,
        (d : Int))) := by
  have he := emit_command_fallback R d hl hr hlen hf
  refine ⟨he, ?_, ?_⟩
  · rw [process_line_triple R d hr, he]
  · intro hne
    have hk : is_control (trim_left R) = false := by
      simp only [is_fallback_command, Bool.not_eq_true', Bool.or_eq_false_iff] at hf
      rw [hl, is_control_eq_keyword]
      exact hf.2
    rw [process_line_slash_space R d hr hne, hk, he]
    simp

theorem command_fallback_witness :
    trim_left "x = x + 1".toList = "x = x + 1".toList ∧
    trim_right_inplace "x = x + 1".toList = "x = x + 1".toList ∧
    "x = x + 1".toList.length < MAX_LINE ∧
    is_fallback_command "x = x + 1".toList = true ∧
    emit_command "x = x + 1".toList (1 : Nat) = "    x = x + 1;\n".toList ∧
    process_line (0 : Nat) "/ return 0;".toList = ("return 0;\n".toList, ((0 : Nat) : Int)) :=
  ⟨by decide, by decide, by decide, by decide,
    (command_fallback "x = x + 1".toList 1 (by decide) (by decide) (by decide) (by decide)).1,
    (command_fallback "return 0;".toList 0 (by decide) (by decide) (by decide)
      (by decide)).2.2 (by decide)⟩

theorem trim_left_append_space (a x : List Char) (ha : ∀ c ∈ a, isspace c = true) :
    trim_left (a ++ x) = trim_left x := by
  induction a with
  | nil => rfl
  | cons c a ih =>
    have hc : isspace c = true := ha c (by simp)
    have iha := ih (fun y hy => ha y (by simp [hy]))
    simp [trim_left, hc, iha]

theorem trim_right_append_space (x b : List Char) (hb : ∀ c ∈ b, isspace c = true) :
    trim_right_inplace (x ++ b) = trim_right_inplace x := by
  rw [trim_right_inplace_eq, trim_right_inplace_eq, List.rdropWhile, List.rdropWhile,
    List.reverse_append]
  rw [List.dropWhile_append_of_pos (fun c hc => hb c (List.mem_reverse.1 hc))]

theorem trim_right_space_append (a x : List Char) (ha : ∀ c ∈ a, isspace c = true) :
    trim_right_inplace (a ++ x) =
      if trim_right_inplace x = [] then [] else a ++ trim_right_inplace x := by
  have hra : List.dropWhile isspace a.reverse = [] := by
    rw [List.dropWhile_eq_nil_iff]
    intro c hc
    exact ha c (List.mem_reverse.1 hc)
  rw [trim_right_inplace_eq, trim_right_inplace_eq, List.rdropWhile, List.rdropWhile,
    List.reverse_append, List.dropWhile_append]
  by_cases h : List.dropWhile isspace x.reverse = []
  · simp [h, hra]
  · have h2 : (List.dropWhile isspace x.reverse).isEmpty = false := by
      cases hx : List.dropWhile isspace x.reverse with
      | nil => exact absurd hx h
      | cons y ys => rfl
    simp [h, h2]

theorem trim_right_trim_left (y : List Char) (hy : trim_right_inplace y = y) :
    trim_right_inplace (trim_left y) = trim_left y := by
  induction y with
  | nil => rfl
  | cons c y ih =>
    by_cases hc : isspace c = true
    · have hne : y ≠ [] := by
        rintro rfl
        rw [trim_right_inplace_fixed_iff] at hy
        have := hy (by simp)
        simp [hc] at this
      have hy2 : trim_right_inplace y = y := by
        rw [trim_right_inplace_fixed_iff] at hy ⊢
        intro hs
        have := hy (by simp)
        rw [List.getLast_cons hs] at this
        exact this
      rw [trim_left, if_pos hc]
      exact ih hy2
    · rw [trim_left, if_neg hc]
      exact hy

theorem trim_right_inplace_idem (s : List Char) :
    trim_right_inplace (trim_right_inplace s) = trim_right_inplace s := by
  rw [trim_right_inplace_eq, trim_right_inplace_eq]
  exact List.rdropWhile_idempotent _ _

/-- The trimmed line of `a ++ L ++ b`, `a` and `b` whitespace, is the trimmed
line of `L`. -/
theorem normalize_surrounded (L a b : List Char) (ha : ∀ c ∈ a, isspace c = true)
    (hb : ∀ c ∈ b, isspace c = true) :
    trim_left (trim_right_inplace (a ++ L ++ b)) = trim_left (trim_right_inplace L) := by
  rw [trim_right_append_space _ b hb, trim_right_space_append a L ha]
  by_cases h : trim_right_inplace L = []
  · rw [if_pos h, h]
  · rw [if_neg h, trim_left_append_space a _ ha]

/-- Trimming a trimmed line changes nothing. -/
theorem normalize_idem (L : List Char) :
    trim_left (trim_right_inplace (trim_left (trim_right_inplace L))) =
      trim_left (trim_right_inplace L) := by
  rw [trim_right_trim_left _ (trim_right_inplace_idem L), trim_left_idem]

theorem process_line_congr (l1 l2 : List Char) (d : Int)
    (h : trim_left (trim_right_inplace l1) = trim_left (trim_right_inplace l2)) :
    process_line d l1 = process_line d l2 := by
  simp only [process_line, h]

/-- C19: for whitespace strings `a` and `b`, the line `a ++ L ++ b` gives the
same emitted text and the same depth as `L` without its own leading and
trailing whitespace. -/
theorem surrounding_whitespace_irrelevant (L a b : List Char) (d : Int)
    (ha : ∀ c ∈ a, isspace c = true) (hb : ∀ c ∈ b, isspace c = true) :
    process_line d (a ++ L ++ b) = process_line d (trim_left (trim_right_inplace L)) := by
  apply process_line_congr
  rw [normalize_surrounded L a b ha hb, normalize_idem]

theorem surrounding_whitespace_irrelevant_witness :
    (∀ c ∈ " \t".toList, isspace c = true) ∧ (∀ c ∈ "  \r\n".toList, isspace c = true) ∧
    process_line 1 (" \t".toList ++ " / if (x) ".toList ++ "  \r\n".toList) =
      process_line 1 "/ if (x)".toList ∧
    process_line 1 " \t / if (x)   \r\n".toList = ("    if (x) \x7b\n".toList, 2) :=
  ⟨by decide, by decide,
    surrounding_whitespace_irrelevant " / if (x) ".toList " \t".toList "  \r\n".toList 1
      (by decide) (by decide), by decide⟩

theorem write_indent_zero : write_indent 0 = [] := rfl

theorem emit_comment_indent (rest : List Char) (d : Nat) :
    emit_comment rest d = List.replicate (4 * d) ' ' ++ emit_comment rest 0 := by
  simp [emit_comment, write_indent_nat, write_indent_zero]

theorem emit_var_line_indent (rest : List Char) (d : Nat) :
    emit_var_line rest d = List.replicate (4 * d) ' ' ++ emit_var_line rest 0 := by
  simp only [emit_var_line, write_indent_nat, write_indent_zero, List.nil_append,
    List.append_assoc]

theorem emit_case_line_indent (rest : List Char) (d : Nat) :
    emit_case_line rest d = List.replicate (4 * d) ' ' ++ emit_case_line rest 0 := by
  simp only [emit_case_line, write_indent_nat, write_indent_zero, List.nil_append]
  split_ifs <;> simp

theorem emit_command_indent (rest : List Char) (d : Nat) :
    emit_command rest d = List.replicate (4 * d) ' ' ++ emit_command rest 0 := by
  simp only [emit_command, write_indent_nat, write_indent_zero, List.nil_append]
  split_ifs <;> (try split) <;> simp

/-- C20: by kind of line, at depth `d`: the text emitted for a `///` or `/`
command, a case label, an unrecognized `+` directive, a comment, a variable
declaration or a passthrough line is `4 * d` spaces followed by the text
emitted at depth 0; a block end is `4 * max (d - 1) 0` spaces and the closing
brace; the text of `+include` (`#include ...`, or nothing), of `+define`
(`#define ...`) and of a function-open line (the remainder and the opening
brace) is the same at every depth, with no indentation. -/
theorem indentation_by_kind (l : List Char) (d : Nat) :
    match classify l with
    | LineKind.blank => (process_line d l).1 = "\n".toList
    | LineKind.includeDirective =>
      (process_line d l).1 = (process_line 0 l).1 ∧
        ((process_line 0 l).1 = [] ∨
          starts_with (process_line 0 l).1 "#include ".toList = true)
    | LineKind.defineDirective =>
      (process_line d l).1 = (process_line 0 l).1 ∧
        starts_with (process_line 0 l).1 "#define ".toList = true
    | LineKind.functionOpen =>
      (process_line d l).1 =
        trim_left ((trim_left (trim_right_inplace l)).drop 1) ++ " \x7b\n".toList
    | LineKind.blockEnd =>
      (process_line d l).1 =
        List.replicate (4 * (max ((d : Int) - 1) 0).toNat) ' ' ++ "\x7d\n".toList
    | _ => (process_line d l).1 = List.replicate (4 * d) ' ' ++ (process_line 0 l).1 := by
  rcases ht : trim_left (trim_right_inplace l) with _ | ⟨c, r⟩
  · have hk : classify l = LineKind.blank := by simp [classify, ht]
    simp only [hk]
    simp [process_line, ht]
  · by_cases h3 : starts_with (c :: r) ['/', '/', '/'] = true
    · have hk : classify l = LineKind.tripleSlashCommand := by simp [classify, ht, h3]
      simp only [hk]
      simp only [process_line, ht]
      simp [h3]
      exact emit_command_indent _ d
    · by_cases h2 : starts_with (c :: r) ['/', '/'] = true
      · have hk : classify l = LineKind.caseLabel := by simp [classify, ht, h3, h2]
        simp only [hk]
        simp only [process_line, ht]
        simp [h3, h2]
        exact emit_case_line_indent _ d
      · by_cases hp : c = '+'
        · subst hp
          by_cases hi : starts_with (trim_left r) ['i', 'n', 'c', 'l', 'u', 'd', 'e'] = true
          · have hk : classify l = LineKind.includeDirective := by
              simp [classify, ht, h3, h2, cget, hi]
            simp only [hk]
            simp only [process_line, ht]
            simp [h3, h2, hi, cget]
            simp only [emit_include]
            split
            · split_ifs <;> simp [starts_with]
            · simp
          · by_cases hdf : starts_with (trim_left r) ['d', 'e', 'f', 'i', 'n', 'e'] = true
            · have hk : classify l = LineKind.defineDirective := by
                simp [classify, ht, h3, h2, cget, hi, hdf]
              simp only [hk]
              simp only [process_line, ht]
              simp [h3, h2, hi, hdf, cget, emit_define, starts_with]
            · have hk : classify l = LineKind.unknownDirective := by
                simp [classify, ht, h3, h2, cget, hi, hdf]
              simp only [hk]
              simp only [process_line, ht]
              simp [h3, h2, hi, hdf, cget, write_indent_nat, write_indent_zero]
        · by_cases hb : c = '|'
          · subst hb
            have hk : classify l = LineKind.comment := by
              simp [classify, ht, h3, h2, cget]
            simp only [hk]
            simp only [process_line, ht]
            simp [h3, h2, cget]
            exact emit_comment_indent _ d
          · by_cases hf : c = '@'
            · subst hf
              have hk : classify l = LineKind.functionOpen := by
                simp [classify, ht, h3, h2, cget]
              simp only [hk]
              simp only [process_line, ht]
              simp [h3, h2, cget, emit_function_start]
            · by_cases hv : c = '$'
              · subst hv
                have hk : classify l = LineKind.varDecl := by
                  simp [classify, ht, h3, h2, cget]
                simp only [hk]
                simp only [process_line, ht]
                simp [h3, h2, cget]
                exact emit_var_line_indent _ d
              · by_cases hc : c = '/'
                · subst hc
                  have hk : classify l = LineKind.command := by
                    simp [classify, ht, h3, h2, cget]
                  simp only [hk]
                  simp only [process_line, ht]
                  simp [h3, h2, cget]
                  split_ifs <;> exact emit_command_indent _ d
                · by_cases he : c = '\\'
                  · subst he
                    have hk : classify l = LineKind.blockEnd := by
                      simp [classify, ht, h3, h2, cget]
                    simp only [hk]
                    rw [process_line_block_end l r d (by omega) ht]
                  · have hk : classify l = LineKind.passthrough := by
                      simp [classify, ht, h3, h2, cget, hp, hb, hf, hv, hc, he]
                    simp only [hk]
                    simp only [process_line, ht]
                    simp [h3, h2, cget, hp, hb, hf, hv, hc, he, write_indent_nat,
                      write_indent_zero]

theorem process_line_var_decl (l r : List Char) (d : Int)
    (ht : trim_left (trim_right_inplace l) = '$' :: r) :
    process_line d l = (emit_var_line r d, d) := by
  simp [process_line, ht, starts_with, cget]

theorem trim_right_inplace_append_ne_nil (p R : List Char)
    (hne : trim_right_inplace R ≠ []) :
    trim_right_inplace (p ++ R) = p ++ trim_right_inplace R := by
  rw [trim_right_inplace_eq, List.rdropWhile] at hne
  have h1 : List.dropWhile isspace R.reverse ≠ [] := by simpa using hne
  have h2 : (List.dropWhile isspace R.reverse).isEmpty = false := by
    cases hx : List.dropWhile isspace R.reverse with
    | nil => exact absurd hx h1
    | cons y ys => rfl
  rw [trim_right_inplace_eq, trim_right_inplace_eq, List.rdropWhile, List.rdropWhile,
    List.reverse_append, List.dropWhile_append]
  simp [h2]

/-- C4 (counterexample): the line `$ string ` (the remainder `R` empty) is
emitted as `string;`, not as `char *;`, and the line `$ string x; ` (`R` with
trailing whitespace) is emitted as `char *x;`, not as `char *x; ;`: the loop
cuts trailing whitespace before the keyword `string ` is looked for. -/
theorem string_keyword_after_right_trim :
    process_line 0 "$ string ".toList = ("string;\n".toList, 0) ∧
    (process_line 0 ("$ string ".toList ++ [])).1 ≠
      List.replicate (4 * 0) ' ' ++ "char *".toList ++ [] ++
        (if ([] : List Char).getLast? = some ';' then [] else ";".toList) ++ "\n".toList ∧
    process_line 0 "$ string x; ".toList = ("char *x;\n".toList, 0) ∧
    (process_line 0 ("$ string ".toList ++ "x; ".toList)).1 ≠
      List.replicate (4 * 0) ' ' ++ "char *".toList ++ "x; ".toList ++
        (if "x; ".toList.getLast? = some ';' then [] else ";".toList) ++ "\n".toList := by
  decide

/-- C4 (amended): for a remainder `R` whose line `$ string R` fits the line
buffer: when `R` is not only whitespace, the line emits `4 * d` spaces,
`char *`, `R` without its trailing whitespace, and a `;` only when that text
does not already end with one; when `R` is empty or only whitespace, the line
is `$ string` once trimmed and emits `4 * d` spaces and `string;`. The depth
is unchanged. -/
theorem var_line_string (R : List Char) (d : Nat)
    (hlen : ("$ string ".toList ++ R).length < MAX_LINE) :
    (trim_right_inplace R ≠ [] →
      process_line d ("$ string ".toList ++ R) =
        (List.replicate (4 * d) ' ' ++ "char *".toList ++ trim_right_inplace R ++
          (if (trim_right_inplace R).getLast? = some ';' then [] else ";".toList)
          ++ "\n".toList, (d : Int))) ∧
    (trim_right_inplace R = [] →
      process_line d ("$ string ".toList ++ R) =
        (List.replicate (4 * d) ' ' ++ "string;\n".toList, (d : Int))) := by
  constructor
  · intro hne
    have hidem := trim_right_inplace_idem R
    have hle : (trim_right_inplace R).length ≤ R.length := by
      rw [trim_right_inplace_eq]
      exact (List.rdropWhile_prefix isspace R).length_le
    have hlen2 : "string ".length + (trim_right_inplace R).length < MAX_LINE := by
      rw [List.length_append, show "$ string ".toList.length = 9 from rfl] at hlen
      rw [show "string ".length = 7 from rfl]
      omega
    have hcongr : process_line d ("$ string ".toList ++ R) =
        process_line d ("$ string ".toList ++ trim_right_inplace R) := by
      apply process_line_congr
      rw [trim_right_inplace_append_ne_nil _ R hne,
        trim_right_inplace_append _ _ hidem hne]
    rw [hcongr]
    exact process_line_var_string (trim_right_inplace R) d hlen2 hne hidem
  · intro hnil
    have hws : ∀ c ∈ R, isspace c = true := by
      rw [trim_right_inplace_eq, List.rdropWhile_eq_nil_iff] at hnil
      exact hnil
    have hs : trim_right_inplace ("$ string ".toList ++ R) = "$ string".toList := by
      rw [trim_right_append_space _ R hws]
      decide
    have ht : trim_left (trim_right_inplace ("$ string ".toList ++ R)) =
        '$' :: " string".toList := by
      rw [hs]
      decide
    rw [process_line_var_decl _ _ _ ht, emit_var_line_indent]
    have h0 : emit_var_line " string".toList 0 = "string;\n".toList := by decide
    rw [h0]

theorem var_line_string_witness :
    ("$ string ".toList ++ "name = \"x\";".toList).length < MAX_LINE ∧
    trim_right_inplace "name = \"x\";".toList ≠ [] ∧
    trim_right_inplace " \t".toList = [] ∧
    process_line (0 : Nat) "$ string name = \"x\";".toList =
      ("char *name = \"x\";\n".toList, ((0 : Nat) : Int)) ∧
    process_line (1 : Nat) "$ string  \t".toList = ("    string;\n".toList, ((1 : Nat) : Int)) :=
  ⟨by decide, by decide, by decide,
    (var_line_string "name = \"x\";".toList 0 (by decide)).1 (by decide),
    (var_line_string " \t".toList 1 (by decide)).2 (by decide)⟩

end COMET
